import Mathlib

/-!
Shallow embedding of `src/src/lib.rs` (spring-challenge-2023).

Conventions used throughout:
* Rust `i32` quantities (ant counts, resources, beacon strengths) are modelled
  as `Int`; no arithmetic in the verified claims comes anywhere near the `i32`
  range, so wrap-around is not modelled.
* `usize` cell indices are modelled as `Nat`.
* The two `f64` values in `assign_moves` (`scaling_factor`, `scaled_strength`)
  are modelled as exact rationals (`ℚ`); every concrete input used below keeps
  those rationals at values where IEEE-754 doubles are exact, so the concrete
  evaluations agree with the Rust code.
* Loops (`while let`) become fuel-indexed recursions returning `Option`;
  `none` means the fuel ran out or the Rust code panicked
  (`unreachable!()` / a failed `assert!`), `some` is a normal return.
* `HashMap<usize, usize>` becomes an association list used only through
  `List.lookup` (insertion happens only for absent keys, so the physical order
  of entries is irrelevant); `HashSet<usize>` becomes a `List Nat` used only
  through membership.
* Rust `Vec` indexing `v[i]` is modelled with `List.getD`; every call site
  below only reaches indices that are in bounds in the Rust code (noted where
  relevant), so the default value is never produced on the Rust side.
-/

/-- `CellKind` from lib.rs. -/
inductive CellKind where
  | Empty : CellKind
  | Eggs : CellKind
  | Crystals : CellKind
deriving DecidableEq, Repr

/-- `Cell` from lib.rs (the parsed per-cell state). -/
structure Cell where
  kind : CellKind
  resources : Int
  neighbors : List Nat
  allied_ants : Int
  ennemy_ants : Int
deriving DecidableEq, Repr

/-- Default used to model out-of-bounds `Vec` indexing (never reached on
in-bounds executions). -/
def cellDefault : Cell :=
  { kind := CellKind.Empty, resources := 0, neighbors := [], allied_ants := 0,
    ennemy_ants := 0 }

/-- `Game` from lib.rs. -/
structure Game where
  cells : List Cell
  allied_bases : List Nat
  ennemy_bases : List Nat
deriving DecidableEq, Repr

/-- `MoveAssignment` from lib.rs. -/
structure MoveAssignment where
  source : Nat
  destination : Nat
  amount : Int
deriving DecidableEq, Repr

/-- `ActionBeacon` from lib.rs. -/
structure ActionBeacon where
  location : Nat
  strength : Int
deriving DecidableEq, Repr

/-- The loop of `Game::distance` (BFS with a visited set, returning the popped
distance when the destination is reached; `unreachable!()` when the queue
empties). The fuel counts loop iterations; `none` models both fuel exhaustion
and the `unreachable!()` panic. -/
def distLoop (g : Game) (destination : Nat) :
    Nat → List Nat → List (Nat × Nat) → Option Nat
  | 0, _, _ => none
  | fuel + 1, visited, q =>
    match q with
    | [] => none
    | (d, state) :: rest =>
      if state ∈ visited then distLoop g destination fuel visited rest
      else
        let visited' := state :: visited
        if state = destination then some d
        else
          distLoop g destination fuel visited'
            (rest ++ (g.cells.getD state cellDefault).neighbors.map
              (fun n => (d + 1, n)))

/-- `Game::distance` from lib.rs. -/
def distanceF (g : Game) (fuel : Nat) (source destination : Nat) : Option Nat :=
  distLoop g destination fuel [] [(0, source)]

/-- The neighbor-expansion loop inside `Game::path`: for each neighbor not yet
in `previous`, record its predecessor and push it at the back of the queue. -/
def expandPath (state d : Nat) :
    List Nat → List (Nat × Nat) → List (Nat × Nat) →
    List (Nat × Nat) × List (Nat × Nat)
  | [], prev, q => (prev, q)
  | n :: ns, prev, q =>
    if (List.lookup n prev).isSome then expandPath state d ns prev q
    else expandPath state d ns ((n, state) :: prev) (q ++ [(d + 1, n)])

/-- The BFS loop of `Game::path` (no visited set; a `previous` map doubling as
the discovery record, except that the source is never recorded). Returns the
found state together with the `previous` map; `none` models fuel exhaustion or
the `unreachable!()` panic on queue exhaustion. -/
def bfsLoop (g : Game) (destination : Nat) :
    Nat → List (Nat × Nat) → List (Nat × Nat) →
    Option (Nat × List (Nat × Nat))
  | 0, _, _ => none
  | fuel + 1, q, prev =>
    match q with
    | [] => none
    | (d, state) :: rest =>
      if state = destination then some (state, prev)
      else
        let pq := expandPath state d
          (g.cells.getD state cellDefault).neighbors prev rest
        bfsLoop g destination fuel pq.2 pq.1

/-- The path-reconstruction loop of `Game::path`: walk `previous` from the
found state, pushing each predecessor, then reverse.  `none` models fuel
exhaustion (the walk itself can cycle, see `path_line3_no_result`). -/
def reconLoop : Nat → List (Nat × Nat) → Nat → List Nat → Option (List Nat)
  | 0, _, _, _ => none
  | fuel + 1, prev, current, acc =>
    match List.lookup current prev with
    | some p => reconLoop fuel prev p (acc ++ [p])
    | none => some acc.reverse

/-- `Game::path` from lib.rs: BFS then predecessor-walk reconstruction. -/
def pathF (g : Game) (f1 f2 : Nat) (source destination : Nat) :
    Option (List Nat) :=
  match bfsLoop g destination f1 [(0, source)] [] with
  | none => none
  | some (state, prev) => reconLoop f2 prev state [state]

/-- The loop of `Game::closest_cell`: BFS with a visited set, returning
`(distance, cell)` for the first popped unvisited cell of the target kind with
nonzero resources, `None` (inner) when the queue empties.  The outer `Option`
is the fuel. -/
def closestLoop (g : Game) (target_kind : CellKind) :
    Nat → List Nat → List (Nat × Nat) → Option (Option (Nat × Nat))
  | 0, _, _ => none
  | fuel + 1, visited, q =>
    match q with
    | [] => some none
    | (d, state) :: rest =>
      if state ∈ visited then closestLoop g target_kind fuel visited rest
      else
        let visited' := state :: visited
        let cell := g.cells.getD state cellDefault
        if cell.kind = target_kind ∧ cell.resources ≠ 0 then
          some (some (d, state))
        else
          closestLoop g target_kind fuel visited'
            (rest ++ cell.neighbors.map (fun n => (d + 1, n)))

/-- `Game::closest_cell` from lib.rs. -/
def closestCellF (g : Game) (source : Nat) (target_kind : CellKind)
    (fuel : Nat) : Option (Option (Nat × Nat)) :=
  closestLoop g target_kind fuel [] [(0, source)]

/-- The local `Source` struct of `Game::assign_moves`. -/
structure Source where
  location : Nat
  ants : Int
deriving DecidableEq, Repr

/-- The local `Sink` struct of `Game::assign_moves`. -/
structure Sink where
  location : Nat
  ants : Int
  wiggle_room : Int
deriving DecidableEq, Repr

def sourceDefault : Source := { location := 0, ants := 0 }

def sinkDefault : Sink := { location := 0, ants := 0, wiggle_room := 0 }

/-- The source-collection loop of `Game::assign_moves`.  Note the guard is
exactly the Rust one, `if cell.allied_ants != 0 { continue; }`: a cell is kept
as a source precisely when its allied ant count is zero. -/
def sourcesOf (g : Game) : List Source :=
  (g.cells.enum.filter (fun ic => !(ic.2.allied_ants ≠ 0 : Bool))).map
    (fun ic => { location := ic.1, ants := ic.2.allied_ants })

/-- Total allied ant count (`total_ants` in `Game::assign_moves`). -/
def totalAllied (g : Game) : Int := (g.cells.map (fun c => c.allied_ants)).sum

/-- The sink-construction loop of `Game::assign_moves`; the two `f64` values
are modelled as exact rationals. -/
def sinksOf (beacons : List ActionBeacon) (scaling_factor : ℚ) : List Sink :=
  beacons.map (fun b =>
    let scaled_strength : ℚ := (b.strength : ℚ) * scaling_factor
    let high_beacon_value : Int := ⌈scaled_strength⌉
    let low_beacon_value : Int := ⌊scaled_strength⌋
    { location := b.location,
      ants := max low_beacon_value 1,
      wiggle_room := high_beacon_value - b.strength })

/-- The pair-collection double loop of `Game::assign_moves`: one entry
`(distance, source_index, sink_index)` per source/sink pair.  A `none` from
`Game::distance` (unreachable sink or insufficient fuel) propagates. -/
def pairsOf (g : Game) (fuel : Nat) (sources : List Source)
    (sinks : List Sink) : Option (List (Nat × Nat × Nat)) :=
  ((sources.enum.flatMap fun si => sinks.enum.map fun ki => (si, ki))).mapM
    (fun p =>
      (distanceF g fuel p.1.2.location p.2.2.location).map
        (fun d => (d, p.1.1, p.2.1)))

/-- Lexicographic order on the pair triples — Rust's derived tuple order used
by `pairs.sort()`. -/
def pairLe (a b : Nat × Nat × Nat) : Prop :=
  a.1 < b.1 ∨ (a.1 = b.1 ∧
    (a.2.1 < b.2.1 ∨ (a.2.1 = b.2.1 ∧ a.2.2 ≤ b.2.2)))

instance : DecidableRel pairLe := fun a b => by
  unfold pairLe; infer_instance

/-- One full walk of the pair list (the inner `for` of the greedy loop in
`Game::assign_moves`), threading the mutable `sources`, `sinks` and
`assignments` state. -/
def passF : List (Nat × Nat × Nat) → List Source → List Sink → Bool →
    List MoveAssignment → List Source × List Sink × List MoveAssignment
  | [], sources, sinks, _, acc => (sources, sinks, acc)
  | p :: rest, sources, sinks, stragglers, acc =>
    let source := sources.getD p.2.1 sourceDefault
    let sink := sinks.getD p.2.2 sinkDefault
    let wiggle : Int := if stragglers then sink.wiggle_room else 0
    let sink_size := sink.ants + wiggle
    let assignment_size := max sink_size source.ants
    if assignment_size = 0 then passF rest sources sinks stragglers acc
    else
      passF rest
        (sources.set p.2.1 { source with ants := source.ants - assignment_size })
        (sinks.set p.2.2 { sink with
          ants := sink.ants - (assignment_size - wiggle),
          wiggle_room := sink.wiggle_room - wiggle })
        stragglers
        (acc ++ [{ source := p.2.1, destination := p.2.2,
                   amount := assignment_size }])

/-- The pair-retention predicate of `Game::assign_moves`:
`self.cells[source_index].allied_ants > 0` — note it indexes `cells` with the
*source index* (in bounds, since there are at most as many sources as cells). -/
def keepPair (g : Game) (p : Nat × Nat × Nat) : Bool :=
  decide ((g.cells.getD p.2.1 cellDefault).allied_ants > 0)

/-- The outer `while !pairs.is_empty()` loop of `Game::assign_moves`. -/
def loopF (g : Game) : Nat → List (Nat × Nat × Nat) → List Source →
    List Sink → Bool → List MoveAssignment → Option (List MoveAssignment)
  | 0, _, _, _, _, _ => none
  | fuel + 1, pairs, sources, sinks, stragglers, acc =>
    if pairs.isEmpty then some acc
    else
      let r := passF pairs sources sinks stragglers acc
      loopF g fuel (pairs.filter (keepPair g)) r.1 r.2.1 true r.2.2

/-- `Game::assign_moves` from lib.rs.  `none` models the `assert!` panic on a
zero ant total, an `unreachable!()` inside `Game::distance`, fuel exhaustion,
and (crucially) the case where the greedy loop never terminates. -/
def assignMovesF (g : Game) (fuel : Nat) (beacons : List ActionBeacon) :
    Option (List MoveAssignment) :=
  let sources := sourcesOf g
  let total_beacons : Int := (beacons.map (fun b => b.strength)).sum
  let total_ants : Int := totalAllied g
  if total_ants = 0 then none
  else
    let scaling_factor : ℚ := (total_beacons : ℚ) / (total_ants : ℚ)
    let sinks := sinksOf beacons scaling_factor
    match pairsOf g fuel sources sinks with
    | none => none
    | some pairs =>
      loopF g fuel (List.insertionSort pairLe pairs) sources sinks false []

/-- One assignment application inside `Game::step`: recompute the path; if it
has more than one node, move `amount` ants from the source cell to the first
hop, with the Rust `assert!(source.allied_ants >= amount)` modelled as `none`. -/
def applyAssignmentF (g : Game) (f1 f2 : Nat) (ma : MoveAssignment) :
    Option Game :=
  match pathF g f1 f2 ma.source ma.destination with
  | none => none
  | some path =>
    if 1 < path.length then
      let src := g.cells.getD ma.source cellDefault
      if src.allied_ants < ma.amount then none
      else
        let cells1 := g.cells.set ma.source
          { src with allied_ants := src.allied_ants - ma.amount }
        let next_step := path.getD 1 0
        let nextCell := cells1.getD next_step cellDefault
        let cells2 := cells1.set next_step
          { nextCell with allied_ants := nextCell.allied_ants + ma.amount }
        some { g with cells := cells2 }
    else some g

/-- `Game::step` from lib.rs (the enemy beacons are unused in the source). -/
def stepF (g : Game) (fuel : Nat) (allied_beacons : List ActionBeacon) :
    Option Game :=
  match assignMovesF g fuel allied_beacons with
  | none => none
  | some mas =>
    mas.foldlM (fun acc ma => applyAssignmentF acc fuel fuel ma) g

/-! ### Concrete games used by the claim theorems and witnesses -/

/-- An empty cell with the given neighbors and allied ant count. -/
def plainCell (nbrs : List Nat) (ants : Int) : Cell :=
  { kind := CellKind.Empty, resources := 0, neighbors := nbrs,
    allied_ants := ants, ennemy_ants := 0 }

/-- Two mutually adjacent cells; cell 0 holds one allied ant, cell 1 none. -/
def gAnts10 : Game :=
  { cells := [plainCell [1] 1, plainCell [0] 0],
    allied_bases := [], ennemy_bases := [] }

/-- Two mutually adjacent cells; cell 0 holds no allied ant, cell 1 one. -/
def gAnts01 : Game :=
  { cells := [plainCell [1] 0, plainCell [0] 1],
    allied_bases := [], ennemy_bases := [] }

/-- A single isolated cell with no allied ants. -/
def gZero : Game :=
  { cells := [plainCell [] 0], allied_bases := [], ennemy_bases := [] }

/-- The path graph 0 — 1 — 2. -/
def gLine3 : Game :=
  { cells := [plainCell [1] 0, plainCell [0, 2] 0, plainCell [1] 0],
    allied_bases := [], ennemy_bases := [] }

/-- Cell 0 empty, cell 1 adjacent to it carrying 3 crystals. -/
def gCrys : Game :=
  { cells := [plainCell [1] 0,
      { kind := CellKind.Crystals, resources := 3, neighbors := [0],
        allied_ants := 0, ennemy_ants := 0 }],
    allied_bases := [], ennemy_bases := [] }

/-- A single beacon of strength 1 on cell 0. -/
def bLoc0 : List ActionBeacon := [{ location := 0, strength := 1 }]

/-- A single beacon of strength 1 on cell 1. -/
def bLoc1 : List ActionBeacon := [{ location := 1, strength := 1 }]

/-! ### C9 -/

/-- C9: for every cell index `x`, `distance(x, x)` returns `0` and
`shortest_path(x, x)` returns the one-element sequence `[x]` (both with any
positive fuel; the loops return on their first iteration). -/
theorem dist_path_self (g : Game) (x : Nat) (f1 f2 f3 : Nat) :
    distanceF g (f1 + 1) x x = some 0 ∧
    pathF g (f2 + 1) (f3 + 1) x x = some [x] := by
  constructor
  · simp [distanceF, distLoop]
  · simp [pathF, bfsLoop, reconLoop]

/-! ### C1 -/

/-- C1 (evaluation at the failing input): in `gAnts10`, cell 0 has a nonzero
allied ant count and cell 1 has none, yet `assign_moves` collects exactly cell
1 as a source, recorded with 0 ants — the `continue` guard is inverted, so the
source set is the *zero*-ant cells, contradicting the claim. -/
theorem sources_are_zero_ant_cells :
    (gAnts10.cells.getD 0 cellDefault).allied_ants = 1 ∧
    (gAnts10.cells.getD 1 cellDefault).allied_ants = 0 ∧
    sourcesOf gAnts10 = [{ location := 1, ants := 0 }] := by decide

/-! ### C8 -/

/-- C8: invoking the allocator when the total allied ant count is zero hits
`assert!(total_ants != 0)` (modelled as `none`) before anything is returned,
for every beacon set and every fuel. -/
theorem assign_moves_zero_total (g : Game) (h : totalAllied g = 0) :
    ∀ fuel beacons, assignMovesF g fuel beacons = none := by
  intro fuel beacons
  simp [assignMovesF, h]

/-- Witness for C8 at the one-cell, zero-ant game. -/
theorem assign_moves_zero_total_witness :
    totalAllied gZero = 0 ∧
    ∀ fuel beacons, assignMovesF gZero fuel beacons = none :=
  ⟨by decide, assign_moves_zero_total gZero (by decide)⟩

/-! ### C4 -/

/-- The `previous` map `Game::path` has built on `gLine3` when it pops the
destination 2 of the query `path(0, 2)`: note `previous[0] = 1` and
`previous[1] = 0` — the source was re-recorded as a successor of its own first
neighbor, closing a cycle. -/
def prevLine3 : List (Nat × Nat) := [(2, 1), (0, 1), (1, 0)]

theorem bfsLoop_line3_stable (m : Nat) :
    bfsLoop gLine3 2 (m + 4) [(0, 0)] [] = some (2, prevLine3) := by
  simp [bfsLoop, expandPath, gLine3, plainCell, cellDefault, prevLine3]

theorem reconLoop_line3_cycle (f : Nat) :
    ∀ acc, reconLoop f prevLine3 0 acc = none ∧
      reconLoop f prevLine3 1 acc = none := by
  induction f with
  | zero => exact fun acc => ⟨rfl, rfl⟩
  | succ n ih =>
    intro acc
    refine ⟨?_, ?_⟩
    · show reconLoop (n + 1) prevLine3 0 acc = none
      simp [reconLoop, prevLine3, List.lookup]
      exact (ih _).2
    · show reconLoop (n + 1) prevLine3 1 acc = none
      simp [reconLoop, prevLine3, List.lookup]
      exact (ih _).1

/-- C4 (counterexample): on the connected path graph 0 — 1 — 2, the query
`shortest_path(0, 2)` never returns, whatever fuel both loops get: the BFS
phase ends with `previous[0] = 1` and `previous[1] = 0`, so the reconstruction
walk cycles between cells 0 and 1 forever. -/
theorem path_line3_no_result : ∀ f1 f2, pathF gLine3 f1 f2 0 2 = none := by
  intro f1 f2
  rcases Nat.lt_or_ge f1 4 with h | h
  · have hb : bfsLoop gLine3 2 f1 [(0, 0)] [] = none := by
      interval_cases f1 <;> decide
    rw [pathF, hb]
  · obtain ⟨m, rfl⟩ : ∃ m, f1 = m + 4 := ⟨f1 - 4, by omega⟩
    rw [pathF, bfsLoop_line3_stable]
    match f2 with
    | 0 => rfl
    | k + 1 =>
      show reconLoop (k + 1) prevLine3 2 [2] = none
      simp [reconLoop, prevLine3, List.lookup]
      exact (reconLoop_line3_cycle k _).2

/-! ### C2 -/

/-- Rewriting `assignMovesF` once the precondition holds and the pair list is
known. -/
theorem assignMovesF_eq_loop (g : Game) (fuel : Nat)
    (beacons : List ActionBeacon) (ps : List (Nat × Nat × Nat))
    (h0 : ¬ totalAllied g = 0)
    (hp : pairsOf g fuel (sourcesOf g)
      (sinksOf beacons
        ((((beacons.map (fun b => b.strength)).sum : Int) : ℚ) /
          ((totalAllied g : Int) : ℚ))) = some ps) :
    assignMovesF g fuel beacons =
      loopF g fuel (List.insertionSort pairLe ps) (sourcesOf g)
        (sinksOf beacons
          ((((beacons.map (fun b => b.strength)).sum : Int) : ℚ) /
            ((totalAllied g : Int) : ℚ))) false [] := by
  simp only [assignMovesF]
  rw [if_neg h0, hp]

/-- Once the state reached after the first walk on `gAnts10` recurs, every
later walk leaves it unchanged (the lone pair is skipped with
`assignment_size = 0`) while the filter keeps the pair (cell 0 still reports
one allied ant), so the loop never stops. -/
theorem loopF_line_fix :
    ∀ f acc, loopF gAnts10 f [(1, 0, 0)] [{ location := 1, ants := -1 }]
      [{ location := 0, ants := 0, wiggle_room := 0 }] true acc = none := by
  intro f
  induction f with
  | zero => intro acc; rfl
  | succ n ih =>
    intro acc
    show loopF gAnts10 (n + 1) _ _ _ true acc = none
    simp only [loopF]
    simp [passF, keepPair, gAnts10, plainCell, cellDefault, sourceDefault,
      sinkDefault]
    exact ih acc

/-- C2 (counterexample): with cell 0 holding one allied ant and adjacent cell
1 holding none, and a single beacon on cell 0 — total allied units are 1 > 0 —
`assign_moves` never terminates, whatever the fuel: the pair filter
`cells[source_index].allied_ants > 0` keeps the only pair forever. -/
theorem assign_moves_line_nonterm :
    ∀ fuel, assignMovesF gAnts10 fuel bLoc0 = none := by
  intro fuel
  match fuel with
  | 0 => decide
  | 1 => decide
  | m + 2 =>
    have hdist : distanceF gAnts10 (m + 2) 1 0 = some 1 := by
      simp [distanceF, distLoop, gAnts10, plainCell, cellDefault]
    have hsrc : sourcesOf gAnts10 = [{ location := 1, ants := 0 }] := by decide
    have hsink : sinksOf bLoc0
        ((((bLoc0.map (fun b => b.strength)).sum : Int) : ℚ) /
          ((totalAllied gAnts10 : Int) : ℚ)) =
        [{ location := 0, ants := 1, wiggle_room := 0 }] := by
      norm_num [sinksOf, bLoc0, totalAllied, gAnts10, plainCell]
    have hp : pairsOf gAnts10 (m + 2) (sourcesOf gAnts10)
        (sinksOf bLoc0
          ((((bLoc0.map (fun b => b.strength)).sum : Int) : ℚ) /
            ((totalAllied gAnts10 : Int) : ℚ))) = some [(1, 0, 0)] := by
      rw [hsrc, hsink]
      simp [pairsOf, List.mapM, List.mapM.loop, hdist]
    rw [assignMovesF_eq_loop gAnts10 (m + 2) bLoc0 [(1, 0, 0)] (by decide) hp]
    rw [hsrc, hsink]
    have hsort : List.insertionSort pairLe [(1, 0, 0)] = [(1, 0, 0)] := rfl
    rw [hsort]
    show loopF gAnts10 (m + 1 + 1) _ _ _ false [] = none
    simp only [loopF]
    simp [passF, keepPair, gAnts10, plainCell, cellDefault, sourceDefault,
      sinkDefault]
    exact loopF_line_fix (m + 1) _

/-! ### C3 and C6 -/

/-- Closed-form run of the allocator on `gAnts01` (cell 0 empty, cell 1 with
one ant, beacon on cell 1): it terminates after one walk and returns a single
assignment drawn from source index 0 — the zero-ant cell 0. -/
theorem assign_moves_eval01 :
    assignMovesF gAnts01 9 bLoc1 =
      some [{ source := 0, destination := 0, amount := 1 }] := by
  have hsrc : sourcesOf gAnts01 = [{ location := 0, ants := 0 }] := by decide
  have hsink : sinksOf bLoc1
      ((((bLoc1.map (fun b => b.strength)).sum : Int) : ℚ) /
        ((totalAllied gAnts01 : Int) : ℚ)) =
      [{ location := 1, ants := 1, wiggle_room := 0 }] := by
    norm_num [sinksOf, bLoc1, totalAllied, gAnts01, plainCell]
  have hp : pairsOf gAnts01 9 (sourcesOf gAnts01)
      (sinksOf bLoc1
        ((((bLoc1.map (fun b => b.strength)).sum : Int) : ℚ) /
          ((totalAllied gAnts01 : Int) : ℚ))) = some [(1, 0, 0)] := by
    rw [hsrc, hsink]; decide
  rw [assignMovesF_eq_loop gAnts01 9 bLoc1 [(1, 0, 0)] (by decide) hp,
    hsrc, hsink]
  decide

/-- C3 (evaluation at the failing input): the allocator on `gAnts01` emits the
assignment `{source 0, destination 0, amount 1}`, whose source — sources index
0, the zero-ant cell 0 — holds 0 allied ants at generation time (the source
list is built exclusively from zero-ant cells, so no source ever has positive
available units). -/
theorem assignment_drawn_from_zero_ant_source :
    assignMovesF gAnts01 9 bLoc1 =
      some [{ source := 0, destination := 0, amount := 1 }] ∧
    sourcesOf gAnts01 = [{ location := 0, ants := 0 }] ∧
    (gAnts01.cells.getD 0 cellDefault).allied_ants = 0 :=
  ⟨assign_moves_eval01, by decide, by decide⟩

/-- Either a `getD` lookup hits the list or it returns the default. -/
theorem getD_mem_or_eq {α : Type} (l : List α) (n : Nat) (d : α) :
    l.getD n d ∈ l ∨ l.getD n d = d := by
  rcases Nat.lt_or_ge n l.length with h | h
  · left
    rw [List.getD_eq_getElem l d h]
    exact List.getElem_mem h
  · right
    exact List.getD_eq_default l d h

/-- Every recorded source carries a nonpositive (in fact zero) ant count:
the inverted guard keeps exactly the zero-ant cells. -/
theorem sourcesOf_ants_nonpos (g : Game) :
    ∀ s ∈ sourcesOf g, s.ants ≤ 0 := by
  intro s hs
  simp only [sourcesOf, List.mem_map, List.mem_filter] at hs
  obtain ⟨ic, ⟨-, hc⟩, rfl⟩ := hs
  simp only [ne_eq, Bool.not_eq_true', decide_eq_false_iff_not, not_not] at hc
  simp [hc]

/-- Every sink starts with at least one demanded ant
(`low_beacon_value.max(1)`). -/
theorem sinksOf_ants_nonneg (beacons : List ActionBeacon) (q : ℚ) :
    ∀ t ∈ sinksOf beacons q, 0 ≤ t.ants := by
  intro t ht
  simp only [sinksOf, List.mem_map] at ht
  obtain ⟨b, -, rfl⟩ := ht
  simp only []
  exact le_trans zero_le_one (le_max_right _ _)

/-- Walking the pair list with `stragglers = false` preserves: sources stay
nonpositive, sinks stay nonnegative, and emitted amounts stay positive. -/
theorem passF_pos :
    ∀ (pairs : List (Nat × Nat × Nat)) (sources : List Source)
      (sinks : List Sink) (acc : List MoveAssignment),
      (∀ s ∈ sources, s.ants ≤ 0) → (∀ t ∈ sinks, 0 ≤ t.ants) →
      (∀ a ∈ acc, 0 < a.amount) →
      (∀ s ∈ (passF pairs sources sinks false acc).1, s.ants ≤ 0) ∧
      (∀ t ∈ (passF pairs sources sinks false acc).2.1, 0 ≤ t.ants) ∧
      (∀ a ∈ (passF pairs sources sinks false acc).2.2, 0 < a.amount) := by
  intro pairs
  induction pairs with
  | nil => intro sources sinks acc h1 h2 h3; exact ⟨h1, h2, h3⟩
  | cons p rest ih =>
    intro sources sinks acc h1 h2 h3
    have hs0 : (sources.getD p.2.1 sourceDefault).ants ≤ 0 := by
      rcases getD_mem_or_eq sources p.2.1 sourceDefault with h | h
      · exact h1 _ h
      · rw [h]; exact le_refl 0
    have ht0 : 0 ≤ (sinks.getD p.2.2 sinkDefault).ants := by
      rcases getD_mem_or_eq sinks p.2.2 sinkDefault with h | h
      · exact h2 _ h
      · rw [h]; exact le_refl 0
    show (∀ s ∈ (passF (p :: rest) sources sinks false acc).1, s.ants ≤ 0) ∧ _
    simp only [passF]
    by_cases hz :
        max ((sinks.getD p.2.2 sinkDefault).ants + if false then (sinks.getD p.2.2 sinkDefault).wiggle_room else 0)
          (sources.getD p.2.1 sourceDefault).ants = 0
    · rw [if_pos hz]
      exact ih sources sinks acc h1 h2 h3
    · rw [if_neg hz]
      simp only [if_neg Bool.false_ne_true] at hz ⊢
      have hmax : max ((sinks.getD p.2.2 sinkDefault).ants + 0)
          (sources.getD p.2.1 sourceDefault).ants =
          (sinks.getD p.2.2 sinkDefault).ants := by
        rw [add_zero]
        exact max_eq_left (le_trans hs0 ht0)
      have hpos : 0 < max ((sinks.getD p.2.2 sinkDefault).ants + 0)
          (sources.getD p.2.1 sourceDefault).ants := by
        rw [hmax]
        rw [add_zero] at hz hmax
        omega
      apply ih
      · intro s hs
        rcases List.mem_or_eq_of_mem_set hs with h | h
        · exact h1 _ h
        · rw [h]; simp only []; omega
      · intro t ht
        rcases List.mem_or_eq_of_mem_set ht with h | h
        · exact h2 _ h
        · rw [h]; simp only []
          rw [add_zero] at hmax
          omega
      · intro a ha
        rcases List.mem_append.1 ha with h | h
        · exact h3 _ h
        · rw [List.mem_singleton.1 h]; exact hpos

/-- The retention filter is idempotent (it depends only on the immutable
cells). -/
theorem filter_keep_idem (g : Game) (l : List (Nat × Nat × Nat)) :
    (l.filter (keepPair g)).filter (keepPair g) = l.filter (keepPair g) := by
  induction l with
  | nil => rfl
  | cons p rest ih =>
    by_cases h : keepPair g p = true
    · simp [List.filter_cons, h, ih]
    · simp [List.filter_cons, h, ih]

/-- If the pair list is a nonempty fixpoint of the retention filter, the
greedy loop recurses forever: whatever the state and fuel, it yields `none`. -/
theorem loopF_fix_none (g : Game) (pairs : List (Nat × Nat × Nat))
    (hne : pairs ≠ []) (hfix : pairs.filter (keepPair g) = pairs) :
    ∀ f sources sinks strag acc,
      loopF g f pairs sources sinks strag acc = none := by
  intro f
  induction f with
  | zero => intro sources sinks strag acc; rfl
  | succ n ih =>
    intro sources sinks strag acc
    show loopF g (n + 1) pairs sources sinks strag acc = none
    simp only [loopF]
    rw [if_neg (by simpa [List.isEmpty_iff] using hne)]
    rw [hfix]
    exact ih _ _ _ _

/-- A successful run of the greedy loop either had no pairs at all, or it
consists of exactly one full walk after which the filter dropped every pair
(the filter is a constant predicate, so surviving pairs survive forever). -/
theorem loopF_some_cases (g : Game) (f : Nat) (pairs : List (Nat × Nat × Nat))
    (sources : List Source) (sinks : List Sink) (strag : Bool)
    (acc l : List MoveAssignment)
    (h : loopF g f pairs sources sinks strag acc = some l) :
    (pairs = [] ∧ l = acc) ∨
    (l = (passF pairs sources sinks strag acc).2.2 ∧
      pairs.filter (keepPair g) = []) := by
  match f with
  | 0 => exact absurd h (by simp [loopF])
  | n + 1 =>
    by_cases hp : pairs = []
    · left
      refine ⟨hp, ?_⟩
      subst hp
      simp [loopF] at h
      exact h.symm
    · right
      have h' : loopF g n (pairs.filter (keepPair g))
          (passF pairs sources sinks strag acc).1
          (passF pairs sources sinks strag acc).2.1 true
          (passF pairs sources sinks strag acc).2.2 = some l := by
        rw [show loopF g (n + 1) pairs sources sinks strag acc =
          loopF g n (pairs.filter (keepPair g))
            (passF pairs sources sinks strag acc).1
            (passF pairs sources sinks strag acc).2.1 true
            (passF pairs sources sinks strag acc).2.2 by
          simp only [loopF]
          rw [if_neg (by simpa [List.isEmpty_iff] using hp)]] at h
        exact h
      by_cases hf : pairs.filter (keepPair g) = []
      · refine ⟨?_, hf⟩
        rw [hf] at h'
        match n with
        | 0 => exact absurd h' (by simp [loopF])
        | m + 1 =>
          simp [loopF] at h'
          exact h'.symm
      · exact absurd h'
          (by rw [loopF_fix_none g _ hf (filter_keep_idem g pairs)]; simp)

/-- C6: every `MoveAssignment` the allocator actually returns carries a
strictly positive amount (in particular a nonzero, nonnegative one), for every
input with a nonzero ant total: a successful run performs at most one walk,
during which every emitted amount equals the sink's remaining positive demand. -/
theorem assign_moves_amounts_pos (g : Game) (fuel : Nat)
    (beacons : List ActionBeacon) (hpre : totalAllied g ≠ 0)
    (l : List MoveAssignment) (h : assignMovesF g fuel beacons = some l) :
    ∀ ma ∈ l, 0 < ma.amount := by
  cases hp : pairsOf g fuel (sourcesOf g)
      (sinksOf beacons
        ((((beacons.map (fun b => b.strength)).sum : Int) : ℚ) /
          ((totalAllied g : Int) : ℚ))) with
  | none =>
    have hnone : assignMovesF g fuel beacons = none := by
      simp only [assignMovesF]
      rw [if_neg hpre, hp]
    rw [hnone] at h
    cases h
  | some ps =>
    rw [assignMovesF_eq_loop g fuel beacons ps hpre hp] at h
    rcases loopF_some_cases g fuel _ _ _ _ _ _ h with ⟨-, rfl⟩ | ⟨rfl, -⟩
    · simp
    · exact (passF_pos _ _ _ _ (sourcesOf_ants_nonpos g)
        (sinksOf_ants_nonneg _ _) (by simp)).2.2

/-- Witness for C6 on the `gAnts01`/`bLoc1` run, which returns a single
assignment of amount 1. -/
theorem assign_moves_amounts_pos_witness :
    totalAllied gAnts01 ≠ 0 ∧
    ∀ ma ∈ ([{ source := 0, destination := 0, amount := 1 }] :
      List MoveAssignment), 0 < ma.amount :=
  ⟨by decide, assign_moves_amounts_pos gAnts01 9 bLoc1 (by decide) _
    assign_moves_eval01⟩

/-! ### C5 -/

theorem getD_set_same {α : Type} (l : List α) (i : Nat) (a d : α)
    (h : i < l.length) : (l.set i a).getD i d = a := by
  rw [List.getD_eq_getElem _ _ (by simpa using h)]
  simp [List.getElem_set_self]

theorem getD_set_ne {α : Type} (l : List α) (i j : Nat) (a d : α)
    (h : i ≠ j) : (l.set i a).getD j d = l.getD j d := by
  simp [List.getD_eq_getElem?_getD, List.getElem?_set_ne h]

/-- C5: for an assignment applied by `Game::step`, with
`p = shortest_path(source, destination)`: a one-node path changes nothing; on
a longer path, if the source cell holds fewer ants than `amount` the
`assert!` fires (modelled `none`), otherwise the returned game decrements the
source cell by `amount`, increments the first-hop cell `p[1]` by `amount`,
and leaves every other cell untouched. -/
theorem step_assignment_semantics (g : Game) (ma : MoveAssignment)
    (f1 f2 : Nat) (p : List Nat)
    (hp : pathF g f1 f2 ma.source ma.destination = some p) :
    (p.length ≤ 1 → applyAssignmentF g f1 f2 ma = some g) ∧
    (1 < p.length →
      ((g.cells.getD ma.source cellDefault).allied_ants < ma.amount →
        applyAssignmentF g f1 f2 ma = none) ∧
      (ma.amount ≤ (g.cells.getD ma.source cellDefault).allied_ants →
        ∃ g', applyAssignmentF g f1 f2 ma = some g' ∧
          (ma.source < g.cells.length → p.getD 1 0 < g.cells.length →
            ma.source ≠ p.getD 1 0 →
            ((g'.cells.getD ma.source cellDefault).allied_ants =
                (g.cells.getD ma.source cellDefault).allied_ants - ma.amount ∧
              (g'.cells.getD (p.getD 1 0) cellDefault).allied_ants =
                (g.cells.getD (p.getD 1 0) cellDefault).allied_ants +
                  ma.amount ∧
              ∀ i, i ≠ ma.source → i ≠ p.getD 1 0 →
                g'.cells.getD i cellDefault =
                  g.cells.getD i cellDefault)))) := by
  constructor
  · intro hle
    simp only [applyAssignmentF]
    rw [hp]
    simp only [if_neg (not_lt.2 hle)]
  · intro hlt
    constructor
    · intro hneg
      simp only [applyAssignmentF]
      rw [hp]
      simp only [if_pos hlt, if_pos hneg]
    · intro hge
      simp only [applyAssignmentF]
      rw [hp]
      simp only [if_pos hlt, if_neg (not_lt.2 hge)]
      refine ⟨_, rfl, ?_⟩
      intro hs hn hne
      refine ⟨?_, ?_, ?_⟩
      · rw [getD_set_ne _ _ _ _ _ (fun h => hne h.symm),
          getD_set_same _ _ _ _ hs]
      · rw [getD_set_same _ _ _ _ (by simpa using hn),
          getD_set_ne _ _ _ _ _ hne]
      · intro i hi1 hi2
        rw [getD_set_ne _ _ _ _ _ (fun h => hi2 h.symm),
          getD_set_ne _ _ _ _ _ (fun h => hi1 h.symm)]

/-- Witness for C5: on `gAnts10`, moving one ant from cell 0 towards cell 1
along the two-node path `[0, 1]`. -/
theorem step_assignment_semantics_witness :
    pathF gAnts10 5 5 (0 : Nat) (1 : Nat) = some [0, 1] ∧
    ((([0, 1] : List Nat).length ≤ 1 →
        applyAssignmentF gAnts10 5 5 ⟨0, 1, 1⟩ = some gAnts10) ∧
      (1 < ([0, 1] : List Nat).length →
        ((gAnts10.cells.getD 0 cellDefault).allied_ants < 1 →
          applyAssignmentF gAnts10 5 5 ⟨0, 1, 1⟩ = none) ∧
        (1 ≤ (gAnts10.cells.getD 0 cellDefault).allied_ants →
          ∃ g', applyAssignmentF gAnts10 5 5 ⟨0, 1, 1⟩ = some g' ∧
            ((0 : Nat) < gAnts10.cells.length →
              ([0, 1] : List Nat).getD 1 0 < gAnts10.cells.length →
              (0 : Nat) ≠ ([0, 1] : List Nat).getD 1 0 →
              ((g'.cells.getD 0 cellDefault).allied_ants =
                  (gAnts10.cells.getD 0 cellDefault).allied_ants - 1 ∧
                (g'.cells.getD (([0, 1] : List Nat).getD 1 0)
                    cellDefault).allied_ants =
                  (gAnts10.cells.getD (([0, 1] : List Nat).getD 1 0)
                    cellDefault).allied_ants + 1 ∧
                ∀ i, i ≠ (0 : Nat) → i ≠ ([0, 1] : List Nat).getD 1 0 →
                  g'.cells.getD i cellDefault =
                    gAnts10.cells.getD i cellDefault))))) :=
  ⟨by decide, step_assignment_semantics gAnts10 ⟨0, 1, 1⟩ 5 5 [0, 1]
    (by decide)⟩

/-! ### C10: specification-side notions for `closest_cell` -/

/-- Neighbor list of a cell index. -/
def nbrs (g : Game) (x : Nat) : List Nat :=
  (g.cells.getD x cellDefault).neighbors

/-- The BFS ball: all cells reachable from `s` along at most `n` edges. -/
def bfsBall (g : Game) (s : Nat) : Nat → Finset Nat
  | 0 => {s}
  | n + 1 => bfsBall g s n ∪ (bfsBall g s n).biUnion (fun x => (nbrs g x).toFinset)

/-- What `closest_cell` looks for: matching kind, nonzero resources. -/
def IsTarget (g : Game) (k : CellKind) (c : Nat) : Prop :=
  (g.cells.getD c cellDefault).kind = k ∧
  (g.cells.getD c cellDefault).resources ≠ 0

instance (g : Game) (k : CellKind) (c : Nat) : Decidable (IsTarget g k c) := by
  unfold IsTarget; infer_instance

/-- Well-formedness as guaranteed by the parser: at most six neighbor slots
per cell, and every neighbor index in range. -/
def WF (g : Game) : Prop :=
  ∀ c ∈ g.cells, c.neighbors.length ≤ 6 ∧
    ∀ m ∈ c.neighbors, m < g.cells.length

instance (g : Game) : Decidable (WF g) := by
  unfold WF; exact List.decidableBAll _ _

theorem bfsBall_zero_iff (g : Game) (s y : Nat) :
    y ∈ bfsBall g s 0 ↔ y = s := by simp [bfsBall]

theorem bfsBall_succ_iff (g : Game) (s : Nat) (n : Nat) (y : Nat) :
    y ∈ bfsBall g s (n + 1) ↔
      y ∈ bfsBall g s n ∨ ∃ x ∈ bfsBall g s n, y ∈ nbrs g x := by
  simp [bfsBall, List.mem_toFinset]

theorem bfsBall_subset_succ (g : Game) (s : Nat) (n : Nat) :
    bfsBall g s n ⊆ bfsBall g s (n + 1) := by
  intro y hy
  exact (bfsBall_succ_iff g s n y).2 (Or.inl hy)

theorem bfsBall_mono (g : Game) (s : Nat) {n m : Nat} (h : n ≤ m) :
    bfsBall g s n ⊆ bfsBall g s m := by
  induction m with
  | zero => rw [Nat.le_zero.1 h]
  | succ m ihm =>
    rcases Nat.lt_or_ge n (m + 1) with h' | h'
    · exact subset_trans (ihm (by omega)) (bfsBall_subset_succ g s m)
    · rw [Nat.le_antisymm h h']

theorem bfsBall_succ_of_nbr (g : Game) (s : Nat) {n x y : Nat}
    (hx : x ∈ bfsBall g s n) (hy : y ∈ nbrs g x) : y ∈ bfsBall g s (n + 1) :=
  (bfsBall_succ_iff g s n y).2 (Or.inr ⟨x, hx, hy⟩)

theorem self_mem_bfsBall (g : Game) (s : Nat) (n : Nat) : s ∈ bfsBall g s n := by
  induction n with
  | zero => simp [bfsBall]
  | succ n ihn => exact bfsBall_subset_succ g s n ihn

/-- In a well-formed game every ball stays inside the cell range. -/
theorem bfsBall_lt_length (g : Game) (s : Nat) (hwf : WF g)
    (hs : s < g.cells.length) :
    ∀ n, ∀ y ∈ bfsBall g s n, y < g.cells.length := by
  intro n
  induction n with
  | zero =>
    intro y hy
    rw [bfsBall_zero_iff] at hy
    exact hy ▸ hs
  | succ n ihn =>
    intro y hy
    rcases (bfsBall_succ_iff g s n y).1 hy with h | ⟨x, hx, hyx⟩
    · exact ihn y h
    · have hxlen := ihn x hx
      have hmem : g.cells.getD x cellDefault ∈ g.cells := by
        rw [List.getD_eq_getElem _ _ hxlen]
        exact List.getElem_mem hxlen
      exact (hwf _ hmem).2 y hyx

/-- In a well-formed game every cell has at most six neighbors. -/
theorem nbrs_length_le (g : Game) (hwf : WF g) {x : Nat}
    (hx : x < g.cells.length) : (nbrs g x).length ≤ 6 := by
  have hmem : g.cells.getD x cellDefault ∈ g.cells := by
    rw [List.getD_eq_getElem _ _ hx]
    exact List.getElem_mem hx
  exact (hwf _ hmem).1

/-- Fuel measure of the `closest_cell` loop. -/
def loopMeasure (g : Game) (visited : List Nat) (q : List (Nat × Nat)) :
    Nat :=
  7 * (g.cells.length - visited.length) + q.length

theorem nodup_bounded_length_le (L : Nat) (l : List Nat) (hn : l.Nodup)
    (hlt : ∀ v ∈ l, v < L) : l.length ≤ L := by
  have hcard : l.toFinset.card = l.length := List.toFinset_card_of_nodup hn
  have hsub : l.toFinset ⊆ Finset.range L := by
    intro v hv
    exact Finset.mem_range.2 (hlt v (List.mem_toFinset.1 hv))
  calc l.length = l.toFinset.card := hcard.symm
    _ ≤ (Finset.range L).card := Finset.card_le_card hsub
    _ = L := Finset.card_range L

theorem mem_of_head? {α : Type} {l : List α} {a : α}
    (h : l.head? = some a) : a ∈ l := by
  cases l with
  | nil => cases h
  | cons b t =>
    injection h with h
    exact h ▸ List.mem_cons_self b t

theorem head_min {l : List (Nat × Nat)} {hd : Nat × Nat}
    (hsort : List.Pairwise (fun a b : Nat × Nat => a.1 ≤ b.1) l)
    (hh : l.head? = some hd) : ∀ p ∈ l, hd.1 ≤ p.1 := by
  cases l with
  | nil => cases hh
  | cons a t =>
    injection hh with hh
    subst hh
    intro p hp
    rcases List.mem_cons.1 hp with rfl | hp
    · exact le_refl _
    · exact (List.pairwise_cons.1 hsort).1 p hp

/-- Invariant of the `closest_cell` loop state. -/
structure ClosestInv (g : Game) (s : Nat) (k : CellKind)
    (visited : List Nat) (q : List (Nat × Nat)) : Prop where
  sound : ∀ p ∈ q, p.2 ∈ bfsBall g s p.1
  sorted : List.Pairwise (fun a b : Nat × Nat => a.1 ≤ b.1) q
  bound : ∀ hd p, q.head? = some hd → p ∈ q → p.1 ≤ hd.1 + 1
  closer : ∀ hd, q.head? = some hd → ∀ e, e < hd.1 →
    ∀ y ∈ bfsBall g s e, y ∈ visited
  frontier : ∀ hd, q.head? = some hd → ∀ y ∈ bfsBall g s hd.1,
    y ∉ visited → (hd.1, y) ∈ q
  edge : ∀ v ∈ visited, ∀ z ∈ nbrs g v, z ∉ visited →
    ∃ dz, (dz, z) ∈ q ∧ ∀ e, z ∈ bfsBall g s e → dz ≤ e
  notarget : ∀ v ∈ visited, ¬ IsTarget g k v
  sstart : s ∈ visited ∨ (0, s) ∈ q
  nodup : visited.Nodup
  vreach : ∀ v ∈ visited, ∃ n, v ∈ bfsBall g s n

theorem pairwise_map_const (c : Nat) (L : List Nat) :
    List.Pairwise (fun a b : Nat × Nat => a.1 ≤ b.1)
      (L.map fun m => (c, m)) := by
  induction L with
  | nil => exact List.Pairwise.nil
  | cons a t iht =>
    rw [List.map_cons, List.pairwise_cons]
    refine ⟨?_, iht⟩
    intro p hp
    obtain ⟨m, hm, rfl⟩ := List.mem_map.1 hp
    exact le_refl _

/-- With an empty queue the visited set is closed under neighbors and
contains the start, hence swallows every ball. -/
theorem inv_empty_closed {g : Game} {s : Nat} {k : CellKind}
    {visited : List Nat} (inv : ClosestInv g s k visited []) :
    ∀ n y, y ∈ bfsBall g s n → y ∈ visited := by
  intro n
  induction n with
  | zero =>
    intro y hy
    rw [bfsBall_zero_iff] at hy
    subst hy
    rcases inv.sstart with h | h
    · exact h
    · exact absurd h (List.not_mem_nil _)
  | succ n ihn =>
    intro y hy
    rcases (bfsBall_succ_iff g s n y).1 hy with h | ⟨x, hx, hyx⟩
    · exact ihn y h
    · by_contra hyv
      obtain ⟨dz, hdz, -⟩ := inv.edge x (ihn x hx) y hyx hyv
      exact List.not_mem_nil _ hdz

/-- Popping an already-visited entry preserves the invariant. -/
theorem inv_skip {g : Game} {s : Nat} {k : CellKind} {visited : List Nat}
    {d x : Nat} {rest : List (Nat × Nat)} (hv : x ∈ visited)
    (inv : ClosestInv g s k visited ((d, x) :: rest)) :
    ClosestInv g s k visited rest := by
  have hd_le_rest : ∀ p ∈ rest, d ≤ p.1 :=
    (List.pairwise_cons.1 inv.sorted).1
  have hbound_all : ∀ p ∈ (d, x) :: rest, p.1 ≤ d + 1 :=
    fun p hp => inv.bound (d, x) p rfl hp
  have hrest_sorted : List.Pairwise (fun a b : Nat × Nat => a.1 ≤ b.1) rest :=
    (List.pairwise_cons.1 inv.sorted).2
  have hball_d : ∀ y ∈ bfsBall g s d, y ∈ visited ∨ (d, y) ∈ rest := by
    intro y hy
    by_cases hyv : y ∈ visited
    · exact Or.inl hyv
    · rcases List.mem_cons.1 (inv.frontier (d, x) rfl y hy hyv) with heq | hr
      · exact Or.inl (by injection heq with h1 h2; rw [h2]; exact hv)
      · exact Or.inr hr
  refine ⟨?_, hrest_sorted, ?_, ?_, ?_, ?_, inv.notarget, ?_, inv.nodup,
    inv.vreach⟩
  · exact fun p hp => inv.sound p (List.mem_cons_of_mem _ hp)
  · intro hd' p hh hp
    have h1 : d ≤ hd'.1 := hd_le_rest hd' (mem_of_head? hh)
    have h2 : p.1 ≤ d + 1 := hbound_all p (List.mem_cons_of_mem _ hp)
    omega
  · intro hd' hh e he y hy
    have h2 : hd'.1 ≤ d + 1 :=
      hbound_all hd' (List.mem_cons_of_mem _ (mem_of_head? hh))
    rcases Nat.lt_or_ge e d with h | h
    · exact inv.closer (d, x) rfl e h y hy
    · have hed : e = d := by omega
      rcases hball_d y (hed ▸ hy) with hyv | hr
      · exact hyv
      · have := head_min hrest_sorted hh (d, y) hr
        omega
  · intro hd' hh y hy hyv
    have h1 : d ≤ hd'.1 := hd_le_rest hd' (mem_of_head? hh)
    have h2 : hd'.1 ≤ d + 1 :=
      hbound_all hd' (List.mem_cons_of_mem _ (mem_of_head? hh))
    rcases (by omega : hd'.1 = d ∨ hd'.1 = d + 1) with hdd | hdd
    · rw [hdd] at hy ⊢
      rcases List.mem_cons.1 (inv.frontier (d, x) rfl y hy hyv) with heq | hr
      · exact absurd (by injection heq with h1 h2; rw [h2]; exact hv) hyv
      · exact hr
    · rw [hdd] at hy ⊢
      have hcl : ∀ z ∈ bfsBall g s d, z ∈ visited := by
        intro z hz
        rcases hball_d z hz with hzv | hr
        · exact hzv
        · have := head_min hrest_sorted hh (d, z) hr
          omega
      rcases (bfsBall_succ_iff g s d y).1 hy with hyd | ⟨pn, hpn, hynb⟩
      · exact absurd (hcl y hyd) hyv
      · obtain ⟨dz, hdzq, hmin⟩ := inv.edge pn (hcl pn hpn) y hynb hyv
        rcases List.mem_cons.1 hdzq with heq | hr
        · exact absurd (by injection heq with h1 h2; rw [h2]; exact hv) hyv
        · have hdz_le : dz ≤ d + 1 := hmin (d + 1) hy
          have hdz_ge : hd'.1 ≤ dz := head_min hrest_sorted hh _ hr
          have hdzd : dz = d + 1 := by omega
          exact hdzd ▸ hr
  · intro v hv' z hz hzv
    obtain ⟨dz, hdzq, hmin⟩ := inv.edge v hv' z hz hzv
    rcases List.mem_cons.1 hdzq with heq | hr
    · exact absurd (by injection heq with h1 h2; rw [h2]; exact hv) hzv
    · exact ⟨dz, hr, hmin⟩
  · rcases inv.sstart with h | h
    · exact Or.inl h
    · rcases List.mem_cons.1 h with heq | hr
      · exact Or.inl (by injection heq with h1 h2; rw [h2]; exact hv)
      · exact Or.inr hr

/-- Marking an unvisited non-target entry and pushing its neighbors
preserves the invariant. -/
theorem inv_mark {g : Game} {s : Nat} {k : CellKind} {visited : List Nat}
    {d x : Nat} {rest : List (Nat × Nat)} (hv : x ∉ visited)
    (ht : ¬ IsTarget g k x)
    (inv : ClosestInv g s k visited ((d, x) :: rest)) :
    ClosestInv g s k (x :: visited)
      (rest ++ (nbrs g x).map fun m => (d + 1, m)) := by
  have hxball : x ∈ bfsBall g s d := inv.sound (d, x) (List.mem_cons_self _ _)
  have hd_le_rest : ∀ p ∈ rest, d ≤ p.1 :=
    (List.pairwise_cons.1 inv.sorted).1
  have hbound_all : ∀ p ∈ (d, x) :: rest, p.1 ≤ d + 1 :=
    fun p hp => inv.bound (d, x) p rfl hp
  have hrest_sorted : List.Pairwise (fun a b : Nat × Nat => a.1 ≤ b.1) rest :=
    (List.pairwise_cons.1 inv.sorted).2
  have hpush_fst : ∀ p ∈ (nbrs g x).map (fun m => (d + 1, m)), p.1 = d + 1 := by
    intro p hp
    obtain ⟨m, hm, rfl⟩ := List.mem_map.1 hp
    rfl
  have hq'_le : ∀ p ∈ rest ++ (nbrs g x).map (fun m => (d + 1, m)),
      p.1 ≤ d + 1 := by
    intro p hp
    rcases List.mem_append.1 hp with h | h
    · exact hbound_all p (List.mem_cons_of_mem _ h)
    · exact le_of_eq (hpush_fst p h)
  have hq'_ge : ∀ p ∈ rest ++ (nbrs g x).map (fun m => (d + 1, m)),
      d ≤ p.1 := by
    intro p hp
    rcases List.mem_append.1 hp with h | h
    · exact hd_le_rest p h
    · rw [hpush_fst p h]; omega
  have hball_d : ∀ y ∈ bfsBall g s d, y ∈ x :: visited ∨ (d, y) ∈ rest := by
    intro y hy
    by_cases hyx : y = x
    · exact Or.inl (by rw [hyx]; exact List.mem_cons_self _ _)
    · by_cases hyv : y ∈ visited
      · exact Or.inl (List.mem_cons_of_mem _ hyv)
      · rcases List.mem_cons.1 (inv.frontier (d, x) rfl y hy hyv) with heq | hr
        · injection heq with h1 h2; exact absurd h2 hyx
        · exact Or.inr hr
  have hsorted' : List.Pairwise (fun a b : Nat × Nat => a.1 ≤ b.1)
      (rest ++ (nbrs g x).map fun m => (d + 1, m)) := by
    refine List.pairwise_append.2 ⟨hrest_sorted,
      pairwise_map_const (d + 1) (nbrs g x), ?_⟩
    intro a ha b hb
    rw [hpush_fst b hb]
    exact hbound_all a (List.mem_cons_of_mem _ ha)
  refine ⟨?_, hsorted', ?_, ?_, ?_, ?_, ?_, ?_,
    List.nodup_cons.2 ⟨hv, inv.nodup⟩, ?_⟩
  · intro p hp
    rcases List.mem_append.1 hp with h | h
    · exact inv.sound p (List.mem_cons_of_mem _ h)
    · obtain ⟨m, hm, rfl⟩ := List.mem_map.1 h
      exact bfsBall_succ_of_nbr g s hxball hm
  · intro hd' p hh hp
    have h1 : d ≤ hd'.1 := hq'_ge hd' (mem_of_head? hh)
    have h2 : p.1 ≤ d + 1 := hq'_le p hp
    omega
  · intro hd' hh e he y hy
    have hge : d ≤ hd'.1 := hq'_ge _ (mem_of_head? hh)
    have hle : hd'.1 ≤ d + 1 := hq'_le _ (mem_of_head? hh)
    rcases Nat.lt_or_ge e d with h | h
    · exact List.mem_cons_of_mem _ (inv.closer (d, x) rfl e h y hy)
    · have hed : e = d := by omega
      rcases hball_d y (hed ▸ hy) with h' | hr
      · exact h'
      · exfalso
        have := head_min hsorted' hh (d, y) (List.mem_append_left _ hr)
        omega
  · intro hd' hh y hy hyv
    have hge : d ≤ hd'.1 := hq'_ge _ (mem_of_head? hh)
    have hle : hd'.1 ≤ d + 1 := hq'_le _ (mem_of_head? hh)
    have hyx : y ≠ x := fun h => hyv (by rw [h]; exact List.mem_cons_self _ _)
    have hyv0 : y ∉ visited := fun h => hyv (List.mem_cons_of_mem _ h)
    rcases (by omega : hd'.1 = d ∨ hd'.1 = d + 1) with hdd | hdd
    · rw [hdd] at hy ⊢
      rcases List.mem_cons.1 (inv.frontier (d, x) rfl y hy hyv0) with heq | hr
      · injection heq with h1 h2; exact absurd h2 hyx
      · exact List.mem_append_left _ hr
    · rw [hdd] at hy ⊢
      have hcl : ∀ z ∈ bfsBall g s d, z ∈ x :: visited := by
        intro z hz
        rcases hball_d z hz with h' | hr
        · exact h'
        · exfalso
          have := head_min hsorted' hh (d, z) (List.mem_append_left _ hr)
          omega
      rcases (bfsBall_succ_iff g s d y).1 hy with hyd | ⟨pn, hpn, hynb⟩
      · exact absurd (hcl y hyd) hyv
      · rcases List.mem_cons.1 (hcl pn hpn) with hpx | hpnv
        · exact List.mem_append_right _
            (List.mem_map.2 ⟨y, hpx ▸ hynb, rfl⟩)
        · obtain ⟨dz, hdzq, hmin⟩ := inv.edge pn hpnv y hynb hyv0
          rcases List.mem_cons.1 hdzq with heq | hr
          · injection heq with h1 h2; exact absurd h2 hyx
          · have h1 : dz ≤ d + 1 := hmin (d + 1) hy
            have h2 : hd'.1 ≤ dz := head_min hsorted' hh _
              (List.mem_append_left _ hr)
            have h3 : dz = d + 1 := by omega
            rw [← h3]
            exact List.mem_append_left _ hr
  · intro v hv' z hz hzv
    have hzx : z ≠ x := fun h => hzv (by rw [h]; exact List.mem_cons_self _ _)
    have hzv0 : z ∉ visited := fun h => hzv (List.mem_cons_of_mem _ h)
    rcases List.mem_cons.1 hv' with hvx | hvv
    · rw [hvx] at hz
      by_cases hzd : z ∈ bfsBall g s d
      · rcases List.mem_cons.1 (inv.frontier (d, x) rfl z hzd hzv0)
          with heq | hr
        · injection heq with h1 h2; exact absurd h2 hzx
        · refine ⟨d, List.mem_append_left _ hr, ?_⟩
          intro e hze
          by_contra hlt
          push_neg at hlt
          exact hzv0 (inv.closer (d, x) rfl e hlt z hze)
      · refine ⟨d + 1, List.mem_append_right _ (List.mem_map.2 ⟨z, hz, rfl⟩),
          ?_⟩
        intro e hze
        by_contra hlt
        push_neg at hlt
        exact hzd (bfsBall_mono g s (by omega : e ≤ d) hze)
    · obtain ⟨dz, hdzq, hmin⟩ := inv.edge v hvv z hz hzv0
      rcases List.mem_cons.1 hdzq with heq | hr
      · injection heq with h1 h2; exact absurd h2 hzx
      · exact ⟨dz, List.mem_append_left _ hr, hmin⟩
  · intro v hv'
    rcases List.mem_cons.1 hv' with hvx | hvv
    · rw [hvx]; exact ht
    · exact inv.notarget v hvv
  · rcases inv.sstart with h | h
    · exact Or.inl (List.mem_cons_of_mem _ h)
    · rcases List.mem_cons.1 h with heq | hr
      · injection heq with h1 h2
        exact Or.inl (by rw [h2]; exact List.mem_cons_self _ _)
      · exact Or.inr (List.mem_append_left _ hr)
  · intro v hv'
    rcases List.mem_cons.1 hv' with hvx | hvv
    · exact ⟨d, by rw [hvx]; exact hxball⟩
    · exact inv.vreach v hvv

/-- Main loop correctness for `closest_cell`: with a valid invariant and
enough fuel the loop returns, `none` only when no reachable cell matches, and
`some (d, c)` only for a matching cell at exactly the minimal matching
distance. -/
theorem closestLoop_ok (g : Game) (s : Nat) (k : CellKind) (hwf : WF g)
    (hs : s < g.cells.length) :
    ∀ fuel visited q, ClosestInv g s k visited q →
      loopMeasure g visited q < fuel →
      ∃ r, closestLoop g k fuel visited q = some r ∧
        ((r = none → ∀ n y, y ∈ bfsBall g s n → ¬ IsTarget g k y) ∧
          (∀ d c, r = some (d, c) → IsTarget g k c ∧ c ∈ bfsBall g s d ∧
            (∀ e, c ∈ bfsBall g s e → d ≤ e) ∧
            (∀ y e, IsTarget g k y → y ∈ bfsBall g s e → d ≤ e))) := by
  intro fuel
  induction fuel with
  | zero =>
    intro visited q inv hm
    exact absurd hm (Nat.not_lt_zero _)
  | succ n ih =>
    intro visited q inv hm
    cases q with
    | nil =>
      refine ⟨none, rfl, ?_, ?_⟩
      · intro _ m y hy htg
        exact inv.notarget y (inv_empty_closed inv m y hy) htg
      · intro d c hc
        simp at hc
    | cons p rest =>
      obtain ⟨d, x⟩ := p
      by_cases hv : x ∈ visited
      · have hm' : loopMeasure g visited rest < n := by
          simp only [loopMeasure, List.length_cons] at hm ⊢
          omega
        obtain ⟨r, hr, hpost⟩ := ih visited rest (inv_skip hv inv) hm'
        refine ⟨r, ?_, hpost⟩
        show closestLoop g k (n + 1) visited ((d, x) :: rest) = some r
        simp only [closestLoop]
        rw [if_pos hv]
        exact hr
      · by_cases ht : IsTarget g k x
        · have ht' : (g.cells.getD x cellDefault).kind = k ∧
              (g.cells.getD x cellDefault).resources ≠ 0 := ht
          refine ⟨some (d, x), ?_, ?_, ?_⟩
          · show closestLoop g k (n + 1) visited ((d, x) :: rest) =
              some (some (d, x))
            simp only [closestLoop]
            rw [if_neg hv, if_pos ht']
          · intro hcontra
            simp at hcontra
          · intro d' c' hc
            injection hc with hpair
            injection hpair with h1 h2
            subst h1
            subst h2
            refine ⟨ht, inv.sound (d, x) (List.mem_cons_self _ _), ?_, ?_⟩
            · intro e hce
              by_contra hlt
              push_neg at hlt
              exact hv (inv.closer (d, x) rfl e hlt x hce)
            · intro y e hty hye
              by_contra hlt
              push_neg at hlt
              exact inv.notarget y (inv.closer (d, x) rfl e hlt y hye) hty
        · have ht' : ¬((g.cells.getD x cellDefault).kind = k ∧
              (g.cells.getD x cellDefault).resources ≠ 0) := ht
          have hxball : x ∈ bfsBall g s d :=
            inv.sound (d, x) (List.mem_cons_self _ _)
          have hxlen : x < g.cells.length :=
            bfsBall_lt_length g s hwf hs d x hxball
          have hvlen : visited.length < g.cells.length := by
            have h1 : (x :: visited).Nodup := List.nodup_cons.2 ⟨hv, inv.nodup⟩
            have h2 : ∀ v ∈ x :: visited, v < g.cells.length := by
              intro v hv'
              rcases List.mem_cons.1 hv' with rfl | hvv
              · exact hxlen
              · obtain ⟨m, hm'⟩ := inv.vreach v hvv
                exact bfsBall_lt_length g s hwf hs m v hm'
            have h3 := nodup_bounded_length_le g.cells.length (x :: visited)
              h1 h2
            simpa using h3
          have hm' : loopMeasure g (x :: visited)
              (rest ++ (nbrs g x).map fun m => (d + 1, m)) < n := by
            have h6 : (nbrs g x).length ≤ 6 := nbrs_length_le g hwf hxlen
            simp only [loopMeasure, List.length_cons, List.length_append,
              List.length_map] at hm ⊢
            omega
          obtain ⟨r, hr, hpost⟩ := ih (x :: visited) _ (inv_mark hv ht inv) hm'
          refine ⟨r, ?_, hpost⟩
          show closestLoop g k (n + 1) visited ((d, x) :: rest) = some r
          simp only [closestLoop]
          rw [if_neg hv, if_neg ht']
          exact hr

/-- A result of the `closest_cell` loop is stable under extra fuel. -/
theorem closestLoop_mono (g : Game) (k : CellKind) :
    ∀ f f' visited q r, closestLoop g k f visited q = some r → f ≤ f' →
      closestLoop g k f' visited q = some r := by
  intro f
  induction f with
  | zero =>
    intro f' visited q r h
    simp [closestLoop] at h
  | succ n ihn =>
    intro f' visited q r h hle
    obtain ⟨m, rfl⟩ : ∃ m, f' = m + 1 := ⟨f' - 1, by omega⟩
    have hnm : n ≤ m := by omega
    cases q with
    | nil =>
      simp only [closestLoop] at h ⊢
      exact h
    | cons p rest =>
      obtain ⟨d, x⟩ := p
      simp only [closestLoop] at h ⊢
      by_cases hv : x ∈ visited
      · rw [if_pos hv] at h ⊢
        exact ihn m _ _ r h hnm
      · rw [if_neg hv] at h ⊢
        by_cases ht : (g.cells.getD x cellDefault).kind = k ∧
            (g.cells.getD x cellDefault).resources ≠ 0
        · rw [if_pos ht] at h ⊢
          exact h
        · rw [if_neg ht] at h ⊢
          exact ihn m _ _ r h hnm

/-- The invariant holds at the start of `closest_cell`. -/
theorem inv_init (g : Game) (s : Nat) (k : CellKind) :
    ClosestInv g s k [] [(0, s)] := by
  refine ⟨?_, ?_, ?_, ?_, ?_, ?_, ?_, ?_, ?_, ?_⟩
  · intro p hp
    rw [List.mem_singleton.1 hp]
    exact (bfsBall_zero_iff g s s).2 rfl
  · simp
  · intro hd p hh hp
    injection hh with hh
    rw [List.mem_singleton.1 hp, ← hh]
    omega
  · intro hd hh e he y hy
    injection hh with hh
    rw [← hh] at he
    exact absurd he (Nat.not_lt_zero _)
  · intro hd hh y hy hyv
    injection hh with hh
    subst hh
    rw [(bfsBall_zero_iff g s y).1 hy]
    exact List.mem_cons_self _ _
  · intro v hv
    exact absurd hv (List.not_mem_nil _)
  · intro v hv
    exact absurd hv (List.not_mem_nil _)
  · exact Or.inr (List.mem_cons_self _ _)
  · exact List.nodup_nil
  · intro v hv
    exact absurd hv (List.not_mem_nil _)

/-- C10: for a well-formed game and in-range source, `closest_cell`
terminates (any fuel past an explicit bound returns the same result, and the
embedding never hits a panic), returns `None` exactly when no reachable cell
of the target kind has nonzero resources, and returns `Some (d, c)` only for
a reachable matching cell `c` whose BFS distance is exactly `d`, with `d`
minimal over all reachable matching cells. -/
theorem closest_cell_correct (g : Game) (s : Nat) (k : CellKind)
    (hwf : WF g) (hs : s < g.cells.length) :
    ∃ r, (∀ fuel, 7 * g.cells.length + 2 ≤ fuel →
        closestCellF g s k fuel = some r) ∧
      ((r = none → ∀ n y, y ∈ bfsBall g s n → ¬ IsTarget g k y) ∧
        (∀ d c, r = some (d, c) → IsTarget g k c ∧ c ∈ bfsBall g s d ∧
          (∀ e, c ∈ bfsBall g s e → d ≤ e) ∧
          (∀ y e, IsTarget g k y → y ∈ bfsBall g s e → d ≤ e))) := by
  have hm : loopMeasure g [] [(0, s)] < 7 * g.cells.length + 2 := by
    simp only [loopMeasure, List.length_nil, List.length_cons]
    omega
  obtain ⟨r, hr, hpost⟩ := closestLoop_ok g s k hwf hs
    (7 * g.cells.length + 2) [] [(0, s)] (inv_init g s k) hm
  refine ⟨r, ?_, hpost⟩
  intro fuel hfuel
  show closestLoop g k fuel [] [(0, s)] = some r
  exact closestLoop_mono g k _ fuel _ _ r hr hfuel

/-- Witness for C10 on `gCrys` (crystals at distance 1 from the source). -/
theorem closest_cell_correct_witness :
    (WF gCrys ∧ 0 < gCrys.cells.length) ∧
    (∃ r, (∀ fuel, 7 * gCrys.cells.length + 2 ≤ fuel →
        closestCellF gCrys 0 CellKind.Crystals fuel = some r) ∧
      ((r = none → ∀ n y, y ∈ bfsBall gCrys 0 n →
          ¬ IsTarget gCrys CellKind.Crystals y) ∧
        (∀ d c, r = some (d, c) → IsTarget gCrys CellKind.Crystals c ∧
          c ∈ bfsBall gCrys 0 d ∧
          (∀ e, c ∈ bfsBall gCrys 0 e → d ≤ e) ∧
          (∀ y e, IsTarget gCrys CellKind.Crystals y →
            y ∈ bfsBall gCrys 0 e → d ≤ e)))) :=
  ⟨⟨by decide, by decide⟩,
    closest_cell_correct gCrys 0 CellKind.Crystals (by decide) (by decide)⟩
